import Mathlib

/-!
Verification of the job-control shell (`src/shell.c`) against its
natural-language specification.

The development shallowly embeds the shell's job table, its operations
(`addjob`, `deletejob`, `getjobpid`, `getjobjid`, `fgpid`, `pid2jid`,
`maxjid`, `listjobs`), the command-line tokenizer `parseline`, the
built-in handlers `bg_handler` / `fg_handler`, the `SIGCHLD` reaper
branch logic, and a transition system over shell states covering
launch / bg / fg / reap / delete, as they are written in the C source.

C machine integers are modelled as `Int` (pids, jids) and `Nat`
(state codes); the fixed-size array `job_list[MAXJOBS]` is modelled as
a `List job_t` (initialised to `MAXJOBS` empty slots); C strings are
`String`.
-/

namespace Tsh

/-- `MAXJOBS` from shell.c: capacity of the job table. -/
def MAXJOBS : Nat := 16

/-- `MAXARGS` from shell.c: maximum number of arguments. -/
def MAXARGS : Nat := 128

/-- Job state `UNDEF` (0). -/
def UNDEF : Nat := 0
/-- Job state `FG` (1): running in foreground. -/
def FG : Nat := 1
/-- Job state `BG` (2): running in background. -/
def BG : Nat := 2
/-- Job state `ST` (3): stopped. -/
def ST : Nat := 3

/-- `struct job_t`: one slot of the job table. -/
structure job_t where
  pid : Int
  jid : Int
  state : Nat
  cmdline : String
deriving DecidableEq, Repr

/-- `clearjob`: the cleared (empty/tombstoned) slot value.
`clearjob` sets `pid = 0`, `jid = 0`, `state = UNDEF`, `cmdline = ""`. -/
def emptyJob : job_t := ⟨0, 0, UNDEF, ""⟩

/-- The job table together with the global allocation counter `nextjid`. -/
structure Jobs where
  list : List job_t
  nextjid : Int
deriving DecidableEq, Repr

/-- `initjobs`: every slot cleared; paired with the initial `nextjid = 1`. -/
def initjobs : Jobs := ⟨List.replicate MAXJOBS emptyJob, 1⟩

/-- Linear scan returning the first slot satisfying `p`, together with its
index.  This models the C idiom `for (i = 0; i < MAXJOBS; i++) if (...)`
returning a pointer `&job_list[i]` (a pointer is an index plus a value). -/
def findWithIdx (p : job_t → Bool) : List job_t → Option (Nat × job_t)
  | [] => none
  | j :: rest =>
      if p j then some (0, j)
      else (findWithIdx p rest).map (fun ix => (ix.1 + 1, ix.2))

/-- Replace the slot at index `i` by `f` of its old value (in-place array
write `job_list[i] = ...` / write through a pointer into the array). -/
def updateAt : List job_t → Nat → (job_t → job_t) → List job_t
  | [], _, _ => []
  | j :: rest, 0, f => f j :: rest
  | j :: rest, i + 1, f => j :: updateAt rest i f

/-- `maxjid`: largest allocated job ID (0 if the table is empty). -/
def maxjid (l : List job_t) : Int :=
  l.foldl (fun m j => if j.jid > m then j.jid else m) 0

/-- `getjobpid`: find a job (by PID) on the job list; rejects `pid < 1`.
Returns the slot index and value (the C function returns a pointer). -/
def getjobpid (l : List job_t) (pid : Int) : Option (Nat × job_t) :=
  if pid < 1 then none else findWithIdx (fun j => j.pid == pid) l

/-- `getjobjid`: find a job (by JID) on the job list; rejects `jid < 1`. -/
def getjobjid (l : List job_t) (jid : Int) : Option (Nat × job_t) :=
  if jid < 1 then none else findWithIdx (fun j => j.jid == jid) l

/-- `pid2jid`: map process ID to job ID, 0 if not found or `pid < 1`. -/
def pid2jid (l : List job_t) (pid : Int) : Int :=
  if pid < 1 then 0
  else
    match findWithIdx (fun j => j.pid == pid) l with
    | some ix => ix.2.jid
    | none => 0

/-- `fgpid`: PID of the current foreground job, 0 if there is none. -/
def fgpid (l : List job_t) : Int :=
  match l.find? (fun j => j.state == FG) with
  | some j => j.pid
  | none => 0

/-- `addjob`: fails (returns `false`, table untouched) when `pid < 1` or no
slot is empty; otherwise writes the job into the first slot with `pid = 0`,
gives it job id `nextjid`, and post-increments `nextjid`, wrapping it back
to 1 once it exceeds `MAXJOBS`. -/
def addjob (s : Jobs) (pid : Int) (state : Nat) (cmdline : String) :
    Jobs × Bool :=
  if pid < 1 then (s, false)
  else
    match findWithIdx (fun j => j.pid == 0) s.list with
    | none => (s, false)
    | some ix =>
        (⟨updateAt s.list ix.1 (fun _ => ⟨pid, s.nextjid, state, cmdline⟩),
          if s.nextjid + 1 > (MAXJOBS : Int) then 1 else s.nextjid + 1⟩,
         true)

/-- `deletejob`: fails (returns `false`, nothing mutated) when `pid < 1` or
no slot has this pid; otherwise clears the first matching slot and
recomputes `nextjid` as `maxjid + 1` over the updated table. -/
def deletejob (s : Jobs) (pid : Int) : Jobs × Bool :=
  if pid < 1 then (s, false)
  else
    match findWithIdx (fun j => j.pid == pid) s.list with
    | none => (s, false)
    | some ix =>
        let l := updateAt s.list ix.1 (fun _ => emptyJob)
        (⟨l, maxjid l + 1⟩, true)

/-! ### Basic lemmas about the scan and write primitives -/

theorem findWithIdx_eq_none {p : job_t → Bool} {l : List job_t} :
    findWithIdx p l = none ↔ ∀ j ∈ l, p j = false := by
  induction l with
  | nil => simp [findWithIdx]
  | cons a as ih =>
      rw [findWithIdx]
      by_cases ha : p a
      · simp [ha]
      · have ha' : p a = false := by simpa using ha
        simp [ha', ih, Option.map_eq_none']

theorem findWithIdx_some_spec {p : job_t → Bool} {l : List job_t} {i : Nat}
    {j : job_t} (h : findWithIdx p l = some (i, j)) :
    l[i]? = some j ∧ p j = true ∧
      ∀ k, k < i → ∀ x, l[k]? = some x → p x = false := by
  induction l generalizing i with
  | nil => simp [findWithIdx] at h
  | cons a as ih =>
      rw [findWithIdx] at h
      by_cases ha : p a
      · rw [if_pos ha] at h
        injection h with h'
        have hi : 0 = i := (Prod.ext_iff.mp h').1
        have hj : a = j := (Prod.ext_iff.mp h').2
        subst hi; subst hj
        exact ⟨List.getElem?_cons_zero, ha,
          fun k hk => absurd hk (Nat.not_lt_zero k)⟩
      · rw [if_neg ha, Option.map_eq_some'] at h
        obtain ⟨⟨i', j'⟩, hf, heq⟩ := h
        have hi : i' + 1 = i := (Prod.ext_iff.mp heq).1
        have hj : j' = j := (Prod.ext_iff.mp heq).2
        subst hi; subst hj
        obtain ⟨h1, h2, h3⟩ := ih hf
        refine ⟨by simpa using h1, h2, ?_⟩
        intro k hk x hx
        cases k with
        | zero =>
            have hxa : a = x := by simpa using hx
            subst hxa
            simpa using ha
        | succ k' =>
            exact h3 k' (Nat.lt_of_succ_lt_succ hk) x (by simpa using hx)

theorem findWithIdx_some_of {p : job_t → Bool} {l : List job_t} {i : Nat}
    {j : job_t} (h1 : l[i]? = some j) (h2 : p j = true)
    (h3 : ∀ k, k < i → ∀ x, l[k]? = some x → p x = false) :
    findWithIdx p l = some (i, j) := by
  induction l generalizing i with
  | nil => simp at h1
  | cons a as ih =>
      cases i with
      | zero =>
          have hj : a = j := by simpa using h1
          subst hj
          rw [findWithIdx, if_pos h2]
      | succ m =>
          have hpa : p a = false :=
            h3 0 (Nat.succ_pos m) a List.getElem?_cons_zero
          rw [findWithIdx, if_neg (by simp [hpa]),
            ih (by simpa using h1) (fun k hk x hx =>
              h3 (k + 1) (Nat.succ_lt_succ hk) x (by simpa using hx))]
          rfl

theorem updateAt_getElem? {l : List job_t} {i : Nat} {f : job_t → job_t}
    (k : Nat) :
    (updateAt l i f)[k]? = if k = i then (l[i]?).map f else l[k]? := by
  induction l generalizing i k with
  | nil => simp [updateAt]
  | cons a as ih =>
      cases i with
      | zero =>
          cases k with
          | zero => simp [updateAt]
          | succ m => simp [updateAt]
      | succ n =>
          cases k with
          | zero => simp [updateAt]
          | succ m => simpa [updateAt] using ih m

theorem mem_updateAt {l : List job_t} {i : Nat} {f : job_t → job_t}
    {x : job_t} (hx : x ∈ updateAt l i f) :
    x ∈ l ∨ ∃ j, l[i]? = some j ∧ x = f j := by
  induction l generalizing i with
  | nil => simp [updateAt] at hx
  | cons a as ih =>
      cases i with
      | zero =>
          rw [updateAt] at hx
          rcases List.mem_cons.mp hx with h | h
          · exact Or.inr ⟨a, List.getElem?_cons_zero, h⟩
          · exact Or.inl (List.mem_cons_of_mem a h)
      | succ n =>
          rw [updateAt] at hx
          rcases List.mem_cons.mp hx with h | h
          · exact Or.inl (h ▸ List.mem_cons_self a as)
          · rcases ih h with h' | ⟨j, hj, hxj⟩
            · exact Or.inl (List.mem_cons_of_mem a h')
            · exact Or.inr ⟨j, by simpa using hj, hxj⟩

theorem length_updateAt {l : List job_t} {i : Nat} {f : job_t → job_t} :
    (updateAt l i f).length = l.length := by
  induction l generalizing i with
  | nil => simp [updateAt]
  | cons a as ih =>
      cases i with
      | zero => simp [updateAt]
      | succ n => simp [updateAt, ih]

/-! ### C2: `addjob` -/

/-- **C2**: for every call `add(pid, state, cmdline)` on the job table: if
`pid` is non-positive or no slot is empty, the call returns a not-added
signal and the table is unchanged; otherwise it occupies the first empty
slot (lowest index with pid 0), assigns that slot the current
allocation-counter value as its job id, and advances the counter by one,
wrapping it back to 1 exactly when it exceeds the table capacity. -/
theorem C2_addjob (s : Jobs) (pid : Int) (st : Nat) (cmd : String) :
    ((pid ≤ 0 ∨ ∀ j ∈ s.list, j.pid ≠ 0) → addjob s pid st cmd = (s, false)) ∧
    (∀ i j, 0 < pid → s.list[i]? = some j → j.pid = 0 →
      (∀ k, k < i → ∀ x, s.list[k]? = some x → x.pid ≠ 0) →
      addjob s pid st cmd =
        (⟨updateAt s.list i (fun _ => ⟨pid, s.nextjid, st, cmd⟩),
          if s.nextjid + 1 > (MAXJOBS : Int) then 1 else s.nextjid + 1⟩,
         true)) := by
  constructor
  · intro h
    rcases h with h | h
    · simp [addjob, show pid < 1 by omega]
    · by_cases hp : pid < 1
      · simp [addjob, hp]
      · have hnone : findWithIdx (fun j => j.pid == 0) s.list = none :=
          findWithIdx_eq_none.mpr fun j hj => beq_eq_false_iff_ne.mpr (h j hj)
        simp [addjob, hp, hnone]
  · intro i j hpid hget hjpid hmin
    have hfind : findWithIdx (fun j => j.pid == 0) s.list = some (i, j) :=
      findWithIdx_some_of hget (beq_iff_eq.mpr hjpid)
        (fun k hk x hx => beq_eq_false_iff_ne.mpr (hmin k hk x hx))
    simp [addjob, show ¬ pid < 1 by omega, hfind]

/-- Witness for C2: adding pid 7 to the fresh table occupies slot 0 with
job id 1 and advances the counter to 2. -/
theorem C2_addjob_witness :
    (0 : Int) < 7 ∧
      addjob initjobs 7 BG "sleep 5" =
        (⟨updateAt initjobs.list 0
            (fun _ => ⟨7, initjobs.nextjid, BG, "sleep 5"⟩),
          if initjobs.nextjid + 1 > (MAXJOBS : Int) then 1
          else initjobs.nextjid + 1⟩, true) :=
  ⟨by decide,
   (C2_addjob initjobs 7 BG "sleep 5").2 0 emptyJob (by decide)
     (by decide) (by decide) (fun k hk => absurd hk (Nat.not_lt_zero k))⟩

/-! ### C5: `deletejob` -/

/-- **C5**: for every call `delete(pid)` on the job table: if no live slot
has process id `pid` (including every non-positive pid), the call returns
not-found and mutates nothing — neither any slot nor the job-id allocation
counter; and deleting an absent pid twice in a row equals deleting it once.
If a slot matches, the first matching slot is cleared (pid, jid, state,
command line reset to empty) and the allocation counter is recomputed as
`maxjid + 1` over the updated table. -/
theorem C5_deletejob (s : Jobs) (pid : Int) :
    ((∀ j ∈ s.list, j.pid ≠ 0 → j.pid ≠ pid) →
        deletejob s pid = (s, false) ∧
        deletejob (deletejob s pid).1 pid = deletejob s pid) ∧
    (∀ i j, 0 < pid → s.list[i]? = some j → j.pid = pid →
      (∀ k, k < i → ∀ x, s.list[k]? = some x → x.pid ≠ pid) →
      deletejob s pid =
        (⟨updateAt s.list i (fun _ => emptyJob),
          maxjid (updateAt s.list i (fun _ => emptyJob)) + 1⟩, true)) := by
  constructor
  · intro h
    have base : deletejob s pid = (s, false) := by
      by_cases hp : pid < 1
      · simp [deletejob, hp]
      · have hnone : findWithIdx (fun j => j.pid == pid) s.list = none := by
          refine findWithIdx_eq_none.mpr fun j hj => ?_
          by_cases hz : j.pid = 0
          · exact beq_eq_false_iff_ne.mpr (by omega)
          · exact beq_eq_false_iff_ne.mpr (h j hj hz)
        simp [deletejob, hp, hnone]
    exact ⟨base, by rw [base]; exact base⟩
  · intro i j hpid hget hjpid hmin
    have hfind : findWithIdx (fun j => j.pid == pid) s.list = some (i, j) :=
      findWithIdx_some_of hget (beq_iff_eq.mpr hjpid)
        (fun k hk x hx => beq_eq_false_iff_ne.mpr (hmin k hk x hx))
    simp [deletejob, show ¬ pid < 1 by omega, hfind]

/-- Witness for C5: deleting absent pid 7 from a one-job table is a
no-op returning not-found, and doing it twice equals doing it once. -/
theorem C5_deletejob_witness :
    deletejob ⟨[⟨9, 1, BG, "sleep 5"⟩], 2⟩ 7 =
      (⟨[⟨9, 1, BG, "sleep 5"⟩], 2⟩, false) ∧
    deletejob (deletejob ⟨[⟨9, 1, BG, "sleep 5"⟩], 2⟩ 7).1 7 =
      deletejob ⟨[⟨9, 1, BG, "sleep 5"⟩], 2⟩ 7 :=
  (C5_deletejob ⟨[⟨9, 1, BG, "sleep 5"⟩], 2⟩ 7).1 (by decide)

/-! ### C10: the reaper's stopped-branch lookup -/

/-- **C10**: in the reaper's stopped-child branch the result of
`getjobpid(job_list, pid)` is dereferenced without a NULL check; the write
through it is well-defined only when every pid the OS reports as stopped
is currently a live job of the table.  Under that precondition the
lookup's not-found (`none`) result is unreachable. -/
theorem C10_getjobpid_found (l : List job_t) (pid : Int)
    (h : ∃ j ∈ l, j.pid = pid ∧ 0 < j.pid) :
    (getjobpid l pid).isSome = true := by
  obtain ⟨j, hj, hpid, hpos⟩ := h
  rw [getjobpid, if_neg (by omega)]
  cases hfind : findWithIdx (fun x => x.pid == pid) l with
  | some ix => rfl
  | none =>
      have := findWithIdx_eq_none.mp hfind j hj
      simp [hpid] at this

/-- Witness for C10: pid 9 is a live job, so its lookup succeeds. -/
theorem C10_getjobpid_found_witness :
    (getjobpid [⟨9, 1, ST, "sleep 5"⟩] 9).isSome = true :=
  C10_getjobpid_found [⟨9, 1, ST, "sleep 5"⟩] 9
    ⟨⟨9, 1, ST, "sleep 5"⟩, by decide, by decide, by decide⟩

/-! ### C4: the `SIGCHLD` reaper's branch behaviour -/

/-- One child status observed by `waitpid(-1, &stat, WNOHANG | WUNTRACED)`.
For a status returned by this call POSIX guarantees that exactly one of
`WIFSTOPPED` / `WIFSIGNALED` / `WIFEXITED` holds, so the handler's three
`if` tests are modelled as one three-way match. -/
inductive ChildStatus where
  | stopped (sig : Int)
  | signaled (sig : Int)
  | exited (code : Int)
deriving DecidableEq, Repr

/-- Body of the `sigchld_handler` reap loop for one reaped `(pid, stat)`:
the stopped branch writes `ST` through the pointer returned by
`getjobpid` (the C code has no NULL check there — see C10; the undefined
NULL-dereference case is modelled as leaving the table unchanged) and
emits a notification built with `sio_puts` / `sio_putl`; the
signal-terminated branch emits its notification and then deletes the job;
the normal-exit branch deletes the job and prints nothing. -/
def sigchld_step (s : Jobs) (pid : Int) (stat : ChildStatus) :
    Jobs × String :=
  match stat with
  | .stopped sig =>
      let s1 : Jobs :=
        match getjobpid s.list pid with
        | some ix =>
            {s with list :=
              updateAt s.list ix.1 (fun x => {x with state := ST})}
        | none => s
      (s1, "Job [" ++ toString (pid2jid s1.list pid) ++ "] ("
        ++ toString pid ++ ") stopped by signal " ++ toString sig ++ "\n")
  | .signaled sig =>
      ((deletejob s pid).1,
       "Job [" ++ toString (pid2jid s.list pid) ++ "] (" ++ toString pid
        ++ ") terminated by signal " ++ toString sig ++ "\n")
  | .exited _ => ((deletejob s pid).1, "")

theorem pid2jid_updateAt_state {l : List job_t} {pid : Int} {i : Nat}
    {j : job_t} (hfind : getjobpid l pid = some (i, j)) (st : Nat) :
    pid2jid (updateAt l i (fun x => {x with state := st})) pid = j.jid := by
  rw [getjobpid] at hfind
  by_cases hp : pid < 1
  · simp [hp] at hfind
  · rw [if_neg hp] at hfind
    obtain ⟨h1, h2, h3⟩ := findWithIdx_some_spec hfind
    have hnew :
        findWithIdx (fun x => x.pid == pid)
          (updateAt l i (fun x => {x with state := st})) =
          some (i, {j with state := st}) := by
      refine findWithIdx_some_of ?_ (by simpa using h2) ?_
      · rw [updateAt_getElem? i, if_pos rfl, h1]; rfl
      · intro k hk x hx
        rw [updateAt_getElem? k, if_neg (Nat.ne_of_lt hk)] at hx
        exact h3 k hk x hx
    rw [pid2jid, if_neg hp, hnew]

/-- **C4**: for every child status the reaper observes: if the status is
stopped, the job's table entry is set to `ST` and a
`Job [jid] (pid) stopped by signal N` notification is emitted without
deleting the job; if terminated by an uncaught signal, a
`Job [jid] (pid) terminated by signal N` notification is emitted and the
job is then deleted; if exited normally (any exit status), the job is
deleted and no notification is emitted. -/
theorem C4_sigchld_branches (s : Jobs) (pid : Int) (sig code : Int) :
    (∀ i j, getjobpid s.list pid = some (i, j) →
      sigchld_step s pid (ChildStatus.stopped sig) =
        (⟨updateAt s.list i (fun x => {x with state := ST}), s.nextjid⟩,
         "Job [" ++ toString j.jid ++ "] (" ++ toString pid
           ++ ") stopped by signal " ++ toString sig ++ "\n")) ∧
    sigchld_step s pid (ChildStatus.signaled sig) =
      ((deletejob s pid).1,
       "Job [" ++ toString (pid2jid s.list pid) ++ "] (" ++ toString pid
         ++ ") terminated by signal " ++ toString sig ++ "\n") ∧
    sigchld_step s pid (ChildStatus.exited code) =
      ((deletejob s pid).1, "") := by
  refine ⟨?_, rfl, rfl⟩
  intro i j hfind
  rw [sigchld_step]
  have hjid := pid2jid_updateAt_state hfind ST
  simp only [hfind, hjid]

/-- Witness for C4's stopped branch: pid 9 (job id 2) is marked `ST`, kept
in the table, and the stop notification is emitted. -/
theorem C4_sigchld_branches_witness :
    sigchld_step ⟨[⟨9, 2, BG, "sleep 5"⟩], 3⟩ 9 (ChildStatus.stopped 20) =
      (⟨updateAt [⟨9, 2, BG, "sleep 5"⟩] 0 (fun x => {x with state := ST}),
        3⟩,
       "Job [" ++ toString (2 : Int) ++ "] (" ++ toString (9 : Int)
         ++ ") stopped by signal " ++ toString (20 : Int) ++ "\n") :=
  (C4_sigchld_branches ⟨[⟨9, 2, BG, "sleep 5"⟩], 3⟩ 9 20 0).1 0
    ⟨9, 2, BG, "sleep 5"⟩ (by decide)

/-! ### C1: `bg` / `fg` on an unresolvable target -/

/-- The whitespace class of C `isspace` (used by `atoi`). -/
def isSpaceC (c : Char) : Bool :=
  c == ' ' || c == '\t' || c == '\n' || c == '\x0b' || c == '\x0c' ||
    c == '\r'

/-- Accumulate a run of decimal digits, stopping at the first non-digit. -/
def digitsVal : List Char → Int → Int
  | [], acc => acc
  | c :: rest, acc =>
      if c.isDigit then digitsVal rest (acc * 10 + ((c.toNat : Int) - 48))
      else acc

/-- C `atoi`: skip leading whitespace, one optional sign, then the longest
digit run (0 when there are no digits). -/
def atoi (str : String) : Int :=
  match str.toList.dropWhile isSpaceC with
  | '-' :: rest => - digitsVal rest 0
  | '+' :: rest => digitsVal rest 0
  | l => digitsVal l 0

/-- Target resolution shared by `bg_handler` and `fg_handler`
(`tok->argv[1]`): a leading `%` means job-id lookup of the number after
it, anything else is a pid lookup of the whole argument. -/
def resolveJob (l : List job_t) (arg : String) : Option (Nat × job_t) :=
  match arg.toList with
  | '%' :: rest => getjobjid l (atoi (String.mk rest))
  | _ => getjobpid l (atoi arg)

/-- Observable outcome of one built-in command: the job table afterwards,
whether an error was reported on the error stream, what was printed to
stdout, and whether the shell process terminated. -/
structure CmdOutcome where
  jobs : Jobs
  errorReported : Bool
  output : String
  terminated : Bool
deriving DecidableEq, Repr

/-- Modelled from the spec: `unix_error` comes from the csapp support
library, whose source is not part of this repository; per §7 of the spec,
"Resolution errors (`fg`/`bg` target not found): reported, command
aborted, shell continues."  So the outcome reports the error, leaves the
table unchanged, prints nothing, and does not terminate the shell. -/
def unix_error_outcome (s : Jobs) : CmdOutcome := ⟨s, true, "", false⟩

/-- `bg_handler`: resolve the target; if absent, report the error and do
nothing else; otherwise set the resolved slot's state to `BG` (write
through the returned pointer), send `SIGCONT` to its process group, and
print the `[jid] (pid) cmdline` notice. -/
def bg_handler (s : Jobs) (arg : String) : CmdOutcome :=
  match resolveJob s.list arg with
  | none => unix_error_outcome s
  | some ix =>
      ⟨{s with list := updateAt s.list ix.1 (fun x => {x with state := BG})},
       false,
       "[" ++ toString ix.2.jid ++ "] (" ++ toString ix.2.pid ++ ") "
         ++ ix.2.cmdline ++ "\n",
       false⟩

/-- `fg_handler`: resolve the target; if absent, report the error and do
nothing else; otherwise send `SIGCONT`, mark the slot `FG`, and wait on
the job's pid with `WUNTRACED`; `stoppedRes` abstracts whether the
retrieved status satisfies `WIFSTOPPED` — if so the slot is marked `ST`
(through the same pointer), otherwise the job is deleted. -/
def fg_handler (s : Jobs) (arg : String) (stoppedRes : Bool) : CmdOutcome :=
  match resolveJob s.list arg with
  | none => unix_error_outcome s
  | some ix =>
      let s1 : Jobs :=
        {s with list := updateAt s.list ix.1 (fun x => {x with state := FG})}
      if stoppedRes then
        ⟨{s1 with
            list := updateAt s1.list ix.1 (fun x => {x with state := ST})},
         false, "", false⟩
      else
        ⟨(deletejob s1 ix.2.pid).1, false, "", false⟩

/-- **C1**: for every `bg` or `fg` command whose target (given as `%jid`
or as a raw pid) resolves to no live job in the job table, the shell
reports an error, aborts only that command, leaves the job table
unchanged, and continues reading the next command line (the shell process
does not terminate).  `unix_error` is modelled from the spec as
report-and-continue. -/
theorem C1_bg_fg_target_not_found (s : Jobs) (arg : String)
    (h : resolveJob s.list arg = none) :
    bg_handler s arg = ⟨s, true, "", false⟩ ∧
    ∀ stoppedRes, fg_handler s arg stoppedRes = ⟨s, true, "", false⟩ := by
  refine ⟨?_, fun stoppedRes => ?_⟩
  · rw [bg_handler, h]; rfl
  · rw [fg_handler, h]; rfl

/-- Witness for C1: with one live job (pid 9, jid 1), the targets `%3`
and pid `4` resolve to nothing; `bg` and `fg` then report an error, keep
the table intact, and the shell lives on. -/
theorem C1_bg_fg_target_not_found_witness :
    bg_handler ⟨[⟨9, 1, ST, "sleep 5"⟩], 2⟩ "%3" =
      ⟨⟨[⟨9, 1, ST, "sleep 5"⟩], 2⟩, true, "", false⟩ ∧
    fg_handler ⟨[⟨9, 1, ST, "sleep 5"⟩], 2⟩ "4" true =
      ⟨⟨[⟨9, 1, ST, "sleep 5"⟩], 2⟩, true, "", false⟩ :=
  ⟨(C1_bg_fg_target_not_found ⟨[⟨9, 1, ST, "sleep 5"⟩], 2⟩ "%3"
      (by decide)).1,
   (C1_bg_fg_target_not_found ⟨[⟨9, 1, ST, "sleep 5"⟩], 2⟩ "4"
      (by decide)).2 true⟩

/-! ### C9: `listjobs` output format -/

/-- The state-label text `listjobs` writes for a slot at index `i` in
state `st`: the `switch` over `BG` / `FG` / `ST` with its
internal-error default diagnostic. -/
def stateLabel (i : Nat) (st : Nat) : String :=
  if st = BG then "Running    "
  else if st = FG then "Foreground "
  else if st = ST then "Stopped    "
  else
    "listjobs: Internal error: job[" ++ toString i ++ "].state="
      ++ toString st ++ " "

/-- `listjobs`: every slot with a nonzero pid produces
`[jid] (pid) ` ++ state label ++ `cmdline\n` (three `write` calls); the
index argument enters only the internal-error diagnostic. -/
def listjobs : List job_t → Nat → String
  | [], _ => ""
  | j :: rest, i =>
      if j.pid ≠ 0 then
        "[" ++ toString j.jid ++ "] (" ++ toString j.pid ++ ") "
          ++ stateLabel i j.state ++ j.cmdline ++ "\n"
          ++ listjobs rest (i + 1)
      else listjobs rest (i + 1)

/-- Pad `s` on the left with spaces up to length `n`. -/
def leftPad (n : Nat) (s : String) : String :=
  String.mk (List.replicate (n - s.length) ' ') ++ s

/-- Pad `s` on the right with spaces up to length `n` (left-justified
field). -/
def rightPad (n : Nat) (s : String) : String :=
  s ++ String.mk (List.replicate (n - s.length) ' ')

/-- The bare state label named by the spec:
`state-label ∈ {"Running", "Foreground", "Stopped"}`. -/
def bareLabel (st : Nat) : String :=
  if st = BG then "Running"
  else if st = FG then "Foreground"
  else "Stopped"

/-- Job line as the claim words it (label left-padded to the fixed
width 11): this definition follows the spec's words, for comparison with
the code's output. -/
def specLineLeftPadded (j : job_t) : String :=
  "[" ++ toString j.jid ++ "] (" ++ toString j.pid ++ ") "
    ++ leftPad 11 (bareLabel j.state) ++ j.cmdline ++ "\n"

/-- Job line as the code produces it: the label is right-padded
(left-justified) to the fixed width 11. -/
def lineRightPadded (j : job_t) : String :=
  "[" ++ toString j.jid ++ "] (" ++ toString j.pid ++ ") "
    ++ rightPad 11 (bareLabel j.state) ++ j.cmdline ++ "\n"

/-- **C9 counterexample**: for a table with the single live background job
`[1] (9) sleep 5 &`, the listing is `[1] (9) Running    sleep 5 &\n` —
the label is followed by the padding spaces, not preceded by them as a
left-padded field would be, so the claimed line shape is wrong. -/
theorem C9_counterexample :
    listjobs [⟨9, 1, BG, "sleep 5 &"⟩] 0 =
      "[1] (9) Running    sleep 5 &\n" ∧
    listjobs [⟨9, 1, BG, "sleep 5 &"⟩] 0 ≠
      specLineLeftPadded ⟨9, 1, BG, "sleep 5 &"⟩ := by
  constructor
  · decide
  · decide

/-- **C9 (amended)**: for every job-table state whose live slots carry one
of the states FG/BG/ST, listing the jobs writes exactly one line per live
slot (slots with a zero process id produce no output), each of the form
`[<jid>] (<pid>) <state-label> <command_line>` where the state label is
one of "Running" (Background), "Foreground", or "Stopped", RIGHT-padded
(left-justified) with spaces to the fixed width 11. -/
theorem C9_listjobs (l : List job_t) (i : Nat)
    (h : ∀ j ∈ l, j.pid ≠ 0 → j.state = FG ∨ j.state = BG ∨ j.state = ST) :
    listjobs l i =
      ((l.filter fun j => j.pid != 0).map lineRightPadded).foldr
        (· ++ ·) "" := by
  induction l generalizing i with
  | nil => rfl
  | cons a as ih =>
      have hrest := ih (i + 1) (fun j hj => h j (List.mem_cons_of_mem a hj))
      by_cases ha : a.pid = 0
      · rw [listjobs, if_neg (by simp [ha]),
          List.filter_cons_of_neg (by simp [ha]), hrest]
      · have hlab : stateLabel i a.state = rightPad 11 (bareLabel a.state) := by
          rcases h a (List.mem_cons_self a as) ha with hs | hs | hs <;> rw [hs]
          · have h1 : stateLabel i FG = "Foreground " := rfl
            have h2 : "Foreground " = rightPad 11 (bareLabel FG) := by decide
            exact h1.trans h2
          · have h1 : stateLabel i BG = "Running    " := rfl
            have h2 : "Running    " = rightPad 11 (bareLabel BG) := by decide
            exact h1.trans h2
          · have h1 : stateLabel i ST = "Stopped    " := rfl
            have h2 : "Stopped    " = rightPad 11 (bareLabel ST) := by decide
            exact h1.trans h2
        rw [listjobs, if_pos ha, List.filter_cons_of_pos (by simp [ha]),
          List.map_cons, List.foldr_cons, hrest, lineRightPadded, hlab]

/-- Witness for C9 (amended): a three-job table (one of each live state)
lists as three right-padded lines. -/
theorem C9_listjobs_witness :
    listjobs [⟨9, 1, BG, "sleep 5 &"⟩, emptyJob, ⟨12, 2, ST, "vim notes"⟩]
        0 =
      (([⟨9, 1, BG, "sleep 5 &"⟩, emptyJob,
          ⟨12, 2, ST, "vim notes"⟩].filter fun j => j.pid != 0).map
        lineRightPadded).foldr (· ++ ·) "" :=
  C9_listjobs
    [⟨9, 1, BG, "sleep 5 &"⟩, emptyJob, ⟨12, 2, ST, "vim notes"⟩] 0
    (by decide)

/-! ### The tokenizer `parseline` (for C6, C7, C8)

`parseline` copies the command line into a local buffer (`strncpy` with
the `MAXLINE_TSH` bound; `fgets` guarantees the line fits, so the copy is
the identity here) and scans it.  The scan is modelled on the remaining
character list; the C pointer `buf` is the suffix not yet consumed. -/

/-- The `delims` whitespace set of `parseline`:
space, tab, carriage return, newline. -/
def isDelim (c : Char) : Bool :=
  c == ' ' || c == '\t' || c == '\r' || c == '\n'

/-- Why `parseline` rejects a line.  All three map to the single C
return value -1 (malformed input); they are distinguished here by the
error message the C code prints. -/
inductive ParseErr where
  | ambiguousRedirect
  | unmatchedQuote
  | missingFileName
deriving DecidableEq, Repr

/-- `enum builtins_t`. -/
inductive builtins_t where
  | BUILTIN_NONE | BUILTIN_QUIT | BUILTIN_JOBS | BUILTIN_BG | BUILTIN_FG
deriving DecidableEq, Repr

/-- Parsing states: `ST_NORMAL` next token is an argument. -/
def ST_NORMAL : Nat := 0
/-- `ST_INFILE`: next token is the input file. -/
def ST_INFILE : Nat := 1
/-- `ST_OUTFILE`: next token is the output file. -/
def ST_OUTFILE : Nat := 2

/-- The mutable locals of the `parseline` scan loop. -/
structure ParseAcc where
  argv : List String
  infile : Option String
  outfile : Option String
  pstate : Nat
deriving DecidableEq, Repr

/-- `strchr(buf, q)` splitting for a quoted token: the characters before
the first occurrence of `q` (the token body) and those after it; `none`
when `q` never occurs — the unmatched-quote situation. -/
def splitQuoted (q : Char) : List Char → Option (List Char × List Char)
  | [] => none
  | c :: rest =>
      if c == q then some ([], rest)
      else (splitQuoted q rest).map (fun pr => (c :: pr.1, pr.2))

/-- The `switch (parsing_state)` that records a finished token: an
argument in state `ST_NORMAL`, the input (resp. output) file name in
`ST_INFILE` (resp. `ST_OUTFILE`), and the ambiguous-redirection error in
the `default` case (`parsing_state` holding both bits); afterwards the
state returns to `ST_NORMAL`. -/
def recordTok (st : ParseAcc) (tok : String) : Except ParseErr ParseAcc :=
  if st.pstate = ST_NORMAL then .ok {st with argv := st.argv ++ [tok]}
  else if st.pstate = ST_INFILE then
    .ok {st with infile := some tok, pstate := ST_NORMAL}
  else if st.pstate = ST_OUTFILE then
    .ok {st with outfile := some tok, pstate := ST_NORMAL}
  else .error .ambiguousRedirect

/-- The scan loop of `parseline`.  Each iteration skips whitespace, then
handles `<`, `>`, a quoted token, or a bare token, and stops early once
`argc` reaches `MAXARGS - 1`.  `fuel` bounds the number of iterations so
the recursion is structural (and hence kernel-computable): every
iteration consumes at least one character of `buf`, so the initial fuel
`buf.length + 1` used by `parseline` can never be exhausted; the
fuel-exhausted case is given the same result as an exhausted buffer. -/
def parseLoopF : Nat → List Char → ParseAcc → Except ParseErr ParseAcc
  | 0, _, st => .ok st
  | fuel + 1, buf, st =>
      match buf.dropWhile isDelim with
      | [] => .ok st
      | c :: rest =>
          if c == '<' then
            if st.infile.isSome then .error .ambiguousRedirect
            else
              parseLoopF fuel rest {st with pstate := st.pstate ||| ST_INFILE}
          else if c == '>' then
            if st.outfile.isSome then .error .ambiguousRedirect
            else
              parseLoopF fuel rest {st with pstate := st.pstate ||| ST_OUTFILE}
          else if c == '\'' || c == '"' then
            match splitQuoted c rest with
            | none => .error .unmatchedQuote
            | some pr =>
                match recordTok st (String.mk pr.1) with
                | .error e => .error e
                | .ok st' =>
                    if MAXARGS - 1 ≤ st'.argv.length then .ok st'
                    else parseLoopF fuel pr.2 st'
          else
            match recordTok st
                (String.mk ((c :: rest).takeWhile fun d => !isDelim d)) with
            | .error e => .error e
            | .ok st' =>
                if MAXARGS - 1 ≤ st'.argv.length then .ok st'
                else
                  parseLoopF fuel ((c :: rest).dropWhile fun d => !isDelim d)
                    st'

/-- The fields of `struct cmdline_tokens` (minus `argc = argv.length`).
`builtins = none` models the C code leaving the field uninitialised on a
blank line (the caller never reads it then). -/
structure cmdline_tokens where
  argv : List String
  infile : Option String
  outfile : Option String
  builtins : Option builtins_t
deriving DecidableEq, Repr

instance {ε α : Type} [DecidableEq ε] [DecidableEq α] :
    DecidableEq (Except ε α) := fun x y =>
  match x, y with
  | .ok a, .ok b =>
      if h : a = b then .isTrue (by rw [h]) else .isFalse (by simp [h])
  | .error a, .error b =>
      if h : a = b then .isTrue (by rw [h]) else .isFalse (by simp [h])
  | .ok _, .error _ => .isFalse (by simp)
  | .error _, .ok _ => .isFalse (by simp)

/-- Classification of `argv[0]` into the builtin commands. -/
def classify (argv0 : String) : builtins_t :=
  if argv0 = "quit" then .BUILTIN_QUIT
  else if argv0 = "jobs" then .BUILTIN_JOBS
  else if argv0 = "bg" then .BUILTIN_BG
  else if argv0 = "fg" then .BUILTIN_FG
  else .BUILTIN_NONE

/-- `*tok->argv[tok->argc - 1] == '&'`: does the string start with `&`
(the empty string starts with `'\0'`, hence no)? -/
def startsAmp (s : String) : Bool :=
  match s.toList with
  | '&' :: _ => true
  | _ => false

/-- `parseline`: run the scan loop, reject a dangling redirection state,
classify the builtin from `argv[0]`, then mark the command background and
drop the last argument exactly when that argument's first character is
`&`.  The boolean is the C return value (1 background / 0 foreground);
`.error` is the C return value -1.  A blank line returns
`([], true)` just as the C code returns 1 with `argc == 0`. -/
def parseline (cmdline : String) : Except ParseErr (cmdline_tokens × Bool) :=
  match parseLoopF (cmdline.toList.length + 1) cmdline.toList
      ⟨[], none, none, ST_NORMAL⟩ with
  | .error e => .error e
  | .ok st =>
      if st.pstate ≠ ST_NORMAL then .error .missingFileName
      else
        match st.argv with
        | [] => .ok (⟨[], st.infile, st.outfile, none⟩, true)
        | a0 :: rest =>
            if startsAmp ((a0 :: rest).getLastD "") then
              .ok (⟨(a0 :: rest).dropLast, st.infile, st.outfile,
                    some (classify a0)⟩, true)
            else
              .ok (⟨a0 :: rest, st.infile, st.outfile,
                    some (classify a0)⟩, false)

/-! ### C6: the background marker -/

/-- **C6 counterexample**: the tokens of `echo &b` are `echo` and `&b`;
the final token is not a bare `&`, yet the parse is marked background
and the whole token `&b` is stripped — the C test looks only at the first
character of the last argument (`*tok->argv[tok->argc - 1] == '&'`). -/
theorem C6_counterexample :
    parseline "echo &b" =
      .ok (⟨["echo"], none, none, some .BUILTIN_NONE⟩, true) ∧
    "&b" ≠ "&" := by
  constructor
  · decide
  · decide

/-- **C6 (amended)**: for every successfully parsed command line whose
scan collected at least one argument, the parse result is marked
background if and only if the first character of the last collected
argument is `&` (whether quoted or not, and regardless of the token kinds
that followed it); exactly in that case that whole argument is removed
from the argument list before the result is returned. -/
theorem C6_background_flag (s : String) (st : ParseAcc) (a0 : String)
    (rest : List String)
    (hloop : parseLoopF (s.toList.length + 1) s.toList
        ⟨[], none, none, ST_NORMAL⟩ = .ok st)
    (hst : st.pstate = ST_NORMAL) (hargv : st.argv = a0 :: rest) :
    parseline s =
      .ok (⟨if startsAmp ((a0 :: rest).getLastD "") then
              (a0 :: rest).dropLast
            else a0 :: rest,
            st.infile, st.outfile, some (classify a0)⟩,
           startsAmp ((a0 :: rest).getLastD "")) := by
  rw [parseline, hloop]
  simp only [hst, hargv, ne_eq, not_true_eq_false, if_false]
  split <;> rename_i hamp <;>
    simp only [List.getLastD_eq_getLast?] at hamp <;> simp [hamp]

/-- Witness for C6 (amended): `ls -l &` is marked background and the
final `&` argument is stripped. -/
theorem C6_background_flag_witness :
    parseline "ls -l &" =
      .ok (⟨["ls", "-l"], none, none, some .BUILTIN_NONE⟩, true) :=
  C6_background_flag "ls -l &" ⟨["ls", "-l", "&"], none, none, ST_NORMAL⟩
    "ls" ["-l", "&"] (by decide) rfl rfl

/-! ### C7: repeated redirection operators -/

/-- **C7 counterexample**: `cat < < f` contains two input-redirection
tokens, yet the tokenizer accepts it (with input file `f`): the C check
`if (tok->infile)` fires only once a filename has been recorded, and
after the first `<` none has been. -/
theorem C7_counterexample :
    parseline "cat < < f" =
      .ok (⟨["cat"], some "f", none, some .BUILTIN_NONE⟩, false) := by
  decide

/-- **C7 (amended)**: whenever the scan loop encounters a `<` token while
an input filename is already recorded — or a `>` token while an output
filename is already recorded — the tokenizer fails with the
ambiguous-redirection signal (so two `<` tokens with an intervening
input filename, e.g. `cat < f < g`, are rejected, while two `<` with no
filename between them are not). -/
theorem C7_ambiguous_redirection (fuel : Nat) (buf : List Char)
    (st : ParseAcc) (c : Char) (rest : List Char) (hfuel : 0 < fuel)
    (hbuf : buf.dropWhile isDelim = c :: rest)
    (h : (c = '<' ∧ st.infile.isSome = true) ∨
         (c = '>' ∧ st.outfile.isSome = true)) :
    parseLoopF fuel buf st = .error .ambiguousRedirect := by
  obtain ⟨n, rfl⟩ : ∃ n, fuel = n + 1 := ⟨fuel - 1, by omega⟩
  rw [parseLoopF, hbuf]
  rcases h with ⟨hc, hs⟩ | ⟨hc, hs⟩ <;> subst hc <;> simp [hs]

/-- Witness for C7 (amended): with input file `f` already recorded,
a further `< g` aborts with the ambiguous-redirection error. -/
theorem C7_ambiguous_redirection_witness :
    parseLoopF 1 [' ', '<', ' ', 'g'] ⟨[], some "f", none, ST_NORMAL⟩ =
      .error .ambiguousRedirect :=
  C7_ambiguous_redirection 1 [' ', '<', ' ', 'g']
    ⟨[], some "f", none, ST_NORMAL⟩ '<' [' ', 'g'] (by decide) (by decide)
    (Or.inl ⟨rfl, by decide⟩)

/-! ### C8: unmatched quotes -/

theorem splitQuoted_eq_none {q : Char} {l : List Char} (h : q ∉ l) :
    splitQuoted q l = none := by
  induction l with
  | nil => rfl
  | cons c rest ih =>
      have h1 : q ≠ c := fun hqc => h (hqc ▸ List.mem_cons_self c rest)
      have h2 : q ∉ rest := fun hm => h (List.mem_cons_of_mem c hm)
      rw [splitQuoted, if_neg (by simpa using Ne.symm h1), ih h2]
      rfl

/-- A line of 127 one-character tokens followed by an opening quote that
never closes. -/
def bigLine : String :=
  String.mk ((List.replicate 127 ['a', ' ']).flatten ++ ['"'])

set_option maxRecDepth 40000 in
/-- **C8 counterexample**: `bigLine` ends in a double quote (its only
quote character, preceded by a space, so it is an opening quote with no
matching closing quote), yet the tokenizer succeeds and returns 127
arguments: the argument-count cap `MAXARGS - 1` stops the scan before
the quote is ever examined. -/
theorem C8_counterexample :
    bigLine.toList.count '"' = 1 ∧
    bigLine.toList.getLast? = some '"' ∧
    parseline bigLine =
      .ok (⟨List.replicate 127 "a", none, none, some .BUILTIN_NONE⟩,
           false) := by
  refine ⟨by decide, by decide, by decide⟩

/-- **C8 (amended)**: whenever the scan loop reaches an opening single or
double quote whose closing quote never occurs in the rest of the line
(which it does for every such quote, unless the maximum argument count
stopped the scan earlier), the tokenizer fails with the malformed-input
signal; the failure carries no argument list, so no partial parse result
reaches the caller.  The second conjunct instantiates this at the whole
command line: if its first token opens an unmatched quote, `parseline`
itself fails. -/
theorem C8_unmatched_quote :
    (∀ fuel buf (st : ParseAcc) q rest, 0 < fuel →
      buf.dropWhile isDelim = q :: rest → (q = '\'' ∨ q = '"') →
      q ∉ rest → parseLoopF fuel buf st = .error .unmatchedQuote) ∧
    (∀ (s : String) q rest, s.toList.dropWhile isDelim = q :: rest →
      (q = '\'' ∨ q = '"') → q ∉ rest →
      parseline s = .error .unmatchedQuote) := by
  have hA : ∀ fuel buf (st : ParseAcc) q rest, 0 < fuel →
      buf.dropWhile isDelim = q :: rest → (q = '\'' ∨ q = '"') →
      q ∉ rest → parseLoopF fuel buf st = .error .unmatchedQuote := by
    intro fuel buf st q rest hfuel hbuf hq hnc
    obtain ⟨n, rfl⟩ : ∃ n, fuel = n + 1 := ⟨fuel - 1, by omega⟩
    rw [parseLoopF, hbuf]
    have hsplit := splitQuoted_eq_none hnc
    rcases hq with rfl | rfl <;> simp [hsplit]
  refine ⟨hA, fun s q rest hbuf hq hnc => ?_⟩
  rw [parseline,
    hA (s.toList.length + 1) s.toList ⟨[], none, none, ST_NORMAL⟩ q rest
      (Nat.succ_pos _) hbuf hq hnc]

/-- Witness for C8 (amended): a line whose first token opens an
unmatched double quote is rejected outright. -/
theorem C8_unmatched_quote_witness :
    parseline "\"ab" = .error .unmatchedQuote :=
  C8_unmatched_quote.2 "\"ab" '"' ['a', 'b'] (by decide) (Or.inr rfl)
    (by decide)

/-! ### C3: at most one foreground job

The shell's control flow is a single thread interrupted by signals; it
is modelled as a transition system.  `Phase` records where the main line
stands: at the prompt (`idle`), inside `eval`'s `sigsuspend` loop
waiting for the foreground child `p` (`evalWait p`), or inside
`fg_handler`'s `waitpid` (`fgWait i p`: `i` is the slot index the C job
pointer refers to, `p` the pid being waited on, both read before the
wait).  The `SIGCHLD` reaper may run in any phase (its table effect is
`sigchld_step`); each child status change is consumed exactly once, and
while `fg_handler` waits synchronously on pid `p` that pid's status goes
to its `waitpid`, so reap transitions during `fgWait` concern other
pids.  Launched pids are fresh (the OS does not reuse the pid of a live
child).  `quit` terminates the process and `jobs` only reads the table,
so neither changes it. -/

inductive Phase where
  | idle
  | evalWait (p : Int)
  | fgWait (i : Nat) (p : Int)
deriving DecidableEq, Repr

/-- A whole shell state: the job table plus the main line's phase. -/
structure Shell where
  jobs : Jobs
  phase : Phase
deriving DecidableEq, Repr

/-- One transition of the shell.  Table effects reuse the embedded
operations: `addjob` (launch), `bg_handler` (the `bg` builtin),
`updateAt`/`deletejob` (the `fg` builtin's pointer writes and delete),
`sigchld_step` (the reaper). -/
inductive Step : Shell → Shell → Prop where
  | launch_bg (s : Shell) (pid : Int) (cmd : String)
      (hphase : s.phase = .idle)
      (hfresh : ∀ j ∈ s.jobs.list, j.pid ≠ pid) :
      Step s ⟨(addjob s.jobs pid BG cmd).1, .idle⟩
  | launch_fg (s : Shell) (pid : Int) (cmd : String)
      (hphase : s.phase = .idle)
      (hfresh : ∀ j ∈ s.jobs.list, j.pid ≠ pid) :
      Step s ⟨(addjob s.jobs pid FG cmd).1, .evalWait pid⟩
  | evalWait_done (s : Shell) (p : Int)
      (hphase : s.phase = .evalWait p) (hfg : fgpid s.jobs.list ≠ p) :
      Step s ⟨s.jobs, .idle⟩
  | bg_run (s : Shell) (arg : String) (hphase : s.phase = .idle) :
      Step s ⟨(bg_handler s.jobs arg).jobs, .idle⟩
  | fg_notfound (s : Shell) (arg : String) (hphase : s.phase = .idle)
      (hres : resolveJob s.jobs.list arg = none) :
      Step s ⟨s.jobs, .idle⟩
  | fg_found (s : Shell) (arg : String) (i : Nat) (j : job_t)
      (hphase : s.phase = .idle)
      (hres : resolveJob s.jobs.list arg = some (i, j)) :
      Step s ⟨{s.jobs with
                 list := updateAt s.jobs.list i fun x => {x with state := FG}},
              .fgWait i j.pid⟩
  | fgWait_stop (s : Shell) (i : Nat) (p : Int)
      (hphase : s.phase = .fgWait i p) :
      Step s ⟨{s.jobs with
                 list := updateAt s.jobs.list i fun x => {x with state := ST}},
              .idle⟩
  | fgWait_exit (s : Shell) (i : Nat) (p : Int)
      (hphase : s.phase = .fgWait i p) :
      Step s ⟨(deletejob s.jobs p).1, .idle⟩
  | reap (s : Shell) (pid : Int) (stat : ChildStatus) (hpid : 0 < pid)
      (hnotwait : ∀ i p, s.phase = .fgWait i p → pid ≠ p) :
      Step s ⟨(sigchld_step s.jobs pid stat).1, s.phase⟩

/-- The states the shell can reach from startup
(`initjobs`, main line at the prompt). -/
inductive Reach : Shell → Prop where
  | init : Reach ⟨initjobs, .idle⟩
  | step {s s' : Shell} : Reach s → Step s s' → Reach s'

/-! #### Table well-formedness and the foreground invariant -/

/-- Structural health of the table, maintained by every operation:
a slot with pid 0 is fully cleared; pids are non-negative; live pids are
unique across slots. -/
def WfTable (l : List job_t) : Prop :=
  (∀ j ∈ l, j.pid = 0 → j = emptyJob) ∧
  (∀ j ∈ l, 0 ≤ j.pid) ∧
  (∀ (i k : Nat) (ji jk : job_t), i < k → l[i]? = some ji →
     l[k]? = some jk → ji.pid ≠ 0 → ji.pid ≠ jk.pid)

/-- The phase-indexed foreground condition: at the prompt no job is
Foreground; while waiting on pid `p` every Foreground job has pid `p`;
and the `fg` builtin's pointer (slot `i`) holds pid `p ≥ 1`. -/
def FgOk (s : Shell) : Prop :=
  match s.phase with
  | .idle => ∀ j ∈ s.jobs.list, j.state ≠ FG
  | .evalWait p => ∀ j ∈ s.jobs.list, j.state = FG → j.pid = p
  | .fgWait i p =>
      (∀ j ∈ s.jobs.list, j.state = FG → j.pid = p) ∧
      (∃ j, s.jobs.list[i]? = some j ∧ j.pid = p) ∧ 1 ≤ p

/-- The inductive invariant for C3. -/
def Inv (s : Shell) : Prop := WfTable s.jobs.list ∧ FgOk s

/-! #### Case analyses of the table operations -/

theorem mem_updateAt_idx {l : List job_t} {i : Nat} {f : job_t → job_t}
    {x : job_t} (hx : x ∈ updateAt l i f) :
    (∃ k, k ≠ i ∧ l[k]? = some x) ∨ ∃ j, l[i]? = some j ∧ x = f j := by
  obtain ⟨k, hk⟩ := List.mem_iff_getElem?.mp hx
  rw [updateAt_getElem? k] at hk
  by_cases hki : k = i
  · rw [if_pos hki] at hk
    right
    cases hg : l[i]? with
    | none => rw [hg] at hk; simp at hk
    | some j => rw [hg] at hk; exact ⟨j, rfl, by simpa using hk.symm⟩
  · rw [if_neg hki] at hk
    exact Or.inl ⟨k, hki, hk⟩

theorem addjob_cases (s : Jobs) (pid : Int) (st : Nat) (cmd : String) :
    (addjob s pid st cmd).1 = s ∨
    (1 ≤ pid ∧ ∃ i0 j0, s.list[i0]? = some j0 ∧ j0.pid = 0 ∧
      (addjob s pid st cmd).1.list =
        updateAt s.list i0 (fun _ => ⟨pid, s.nextjid, st, cmd⟩)) := by
  rw [addjob]
  by_cases hp : pid < 1
  · rw [if_pos hp]; exact Or.inl rfl
  · rw [if_neg hp]
    cases hf : findWithIdx (fun j => j.pid == 0) s.list with
    | none => exact Or.inl rfl
    | some ix =>
        obtain ⟨hget, hpid0, _⟩ := findWithIdx_some_spec (i := ix.1)
          (j := ix.2) (by rw [hf])
        exact Or.inr ⟨by omega, ix.1, ix.2, hget, by simpa using hpid0, rfl⟩

theorem deletejob_cases (s : Jobs) (pid : Int) :
    (deletejob s pid).1 = s ∨
    (1 ≤ pid ∧ ∃ i0 j0, s.list[i0]? = some j0 ∧ j0.pid = pid ∧
      (deletejob s pid).1.list =
        updateAt s.list i0 (fun _ => emptyJob)) := by
  rw [deletejob]
  by_cases hp : pid < 1
  · rw [if_pos hp]; exact Or.inl rfl
  · rw [if_neg hp]
    cases hf : findWithIdx (fun j => j.pid == pid) s.list with
    | none => exact Or.inl rfl
    | some ix =>
        obtain ⟨hget, hpid0, _⟩ := findWithIdx_some_spec (i := ix.1)
          (j := ix.2) (by rw [hf])
        exact Or.inr ⟨by omega, ix.1, ix.2, hget, by simpa using hpid0, rfl⟩

theorem deletejob_found (s : Jobs) (pid : Int) (hp : 1 ≤ pid)
    (hex : ∃ (k : Nat) (j : job_t), s.list[k]? = some j ∧ j.pid = pid) :
    ∃ i0 j0, s.list[i0]? = some j0 ∧ j0.pid = pid ∧
      (deletejob s pid).1.list = updateAt s.list i0 (fun _ => emptyJob) := by
  rw [deletejob, if_neg (by omega)]
  cases hf : findWithIdx (fun j => j.pid == pid) s.list with
  | none =>
      obtain ⟨k, j, hk, hjp⟩ := hex
      have := findWithIdx_eq_none.mp hf j (List.getElem?_mem hk)
      simp [hjp] at this
  | some ix =>
      obtain ⟨hget, hpid0, _⟩ := findWithIdx_some_spec (i := ix.1)
        (j := ix.2) (by rw [hf])
      exact ⟨ix.1, ix.2, hget, by simpa using hpid0, rfl⟩

theorem getjobpid_some {l : List job_t} {pid : Int} {i : Nat} {j : job_t}
    (h : getjobpid l pid = some (i, j)) :
    l[i]? = some j ∧ j.pid = pid ∧ 1 ≤ pid := by
  rw [getjobpid] at h
  by_cases hp : pid < 1
  · rw [if_pos hp] at h; exact absurd h (by simp)
  · rw [if_neg hp] at h
    obtain ⟨hget, hpj, _⟩ := findWithIdx_some_spec h
    exact ⟨hget, by simpa using hpj, by omega⟩

theorem getjobjid_some {l : List job_t} {jid : Int} {i : Nat} {j : job_t}
    (h : getjobjid l jid = some (i, j)) :
    l[i]? = some j ∧ j.jid = jid ∧ 1 ≤ jid := by
  rw [getjobjid] at h
  by_cases hp : jid < 1
  · rw [if_pos hp] at h; exact absurd h (by simp)
  · rw [if_neg hp] at h
    obtain ⟨hget, hpj, _⟩ := findWithIdx_some_spec h
    exact ⟨hget, by simpa using hpj, by omega⟩

/-- Under table well-formedness, a resolved `bg`/`fg` target is a live
slot: the pid branch guarantees a positive pid directly, and the jid
branch via `jid ≥ 1` plus the cleared-slot invariant. -/
theorem resolveJob_some {l : List job_t} {arg : String} {i : Nat}
    {j : job_t} (hw1 : ∀ x ∈ l, x.pid = 0 → x = emptyJob)
    (hw2 : ∀ x ∈ l, 0 ≤ x.pid)
    (h : resolveJob l arg = some (i, j)) :
    l[i]? = some j ∧ 1 ≤ j.pid := by
  rw [resolveJob] at h
  split at h
  · obtain ⟨hget, hjid, hj1⟩ := getjobjid_some h
    refine ⟨hget, ?_⟩
    have hmem := List.getElem?_mem hget
    by_cases hz : j.pid = 0
    · have := hw1 j hmem hz
      rw [this] at hjid
      simp [emptyJob] at hjid
      omega
    · have := hw2 j hmem
      omega
  · obtain ⟨hget, hjp, hp1⟩ := getjobpid_some h
    exact ⟨hget, by omega⟩

/-! #### Preservation lemmas -/

theorem pid_clash {l : List job_t}
    (hw3 : ∀ (a b : Nat) (ja jb : job_t), a < b → l[a]? = some ja →
      l[b]? = some jb → ja.pid ≠ 0 → ja.pid ≠ jb.pid)
    {k i : Nat} {x jw : job_t} (hki : k ≠ i) (hk : l[k]? = some x)
    (hi : l[i]? = some jw) (hxp : x.pid = jw.pid) (hx0 : x.pid ≠ 0) :
    False := by
  rcases Nat.lt_or_ge k i with h | h
  · exact hw3 k i x jw h hk hi hx0 hxp
  · have h' : i < k := Nat.lt_of_le_of_ne h (Ne.symm hki)
    have hjw0 : jw.pid ≠ 0 := hxp ▸ hx0
    exact hw3 i k jw x h' hi hk hjw0 hxp.symm

/-- Replacing a live slot's state keeps the table well-formed. -/
theorem WfTable_updateAt_state {l : List job_t} {i : Nat} {j : job_t}
    {st : Nat} (hw : WfTable l) (hget : l[i]? = some j)
    (hpid : j.pid ≠ 0) :
    WfTable (updateAt l i fun x => {x with state := st}) := by
  obtain ⟨h1, h2, h3⟩ := hw
  refine ⟨?_, ?_, ?_⟩
  · intro x hx hx0
    rcases mem_updateAt_idx hx with ⟨k, _, hk⟩ | ⟨j', hj', hxe⟩
    · exact h1 x (List.getElem?_mem hk) hx0
    · rw [hget] at hj'; injection hj' with hj'
      subst hj'; subst hxe
      exact absurd hx0 hpid
  · intro x hx
    rcases mem_updateAt_idx hx with ⟨k, _, hk⟩ | ⟨j', hj', hxe⟩
    · exact h2 x (List.getElem?_mem hk)
    · rw [hget] at hj'; injection hj' with hj'
      subst hj'; subst hxe
      exact h2 j (List.getElem?_mem hget)
  · intro a b ja jb hab hga hgb hja
    rw [updateAt_getElem?] at hga hgb
    by_cases hai : a = i <;> by_cases hbi : b = i
    · exact absurd (hai.trans hbi.symm) (Nat.ne_of_lt hab)
    · subst hai
      rw [if_pos rfl, hget, Option.map_some'] at hga
      rw [if_neg hbi] at hgb
      injection hga with hga
      subst hga
      exact h3 a b j jb hab hget hgb hja
    · subst hbi
      rw [if_neg hai] at hga
      rw [if_pos rfl, hget, Option.map_some'] at hgb
      injection hgb with hgb
      subst hgb
      exact h3 a b ja j hab hga hget hja
    · rw [if_neg hai] at hga
      rw [if_neg hbi] at hgb
      exact h3 a b ja jb hab hga hgb hja

/-- Clearing a slot keeps the table well-formed. -/
theorem WfTable_updateAt_clear {l : List job_t} {i : Nat}
    (hw : WfTable l) :
    WfTable (updateAt l i fun _ => emptyJob) := by
  obtain ⟨h1, h2, h3⟩ := hw
  refine ⟨?_, ?_, ?_⟩
  · intro x hx hx0
    rcases mem_updateAt_idx hx with ⟨k, _, hk⟩ | ⟨j', _, hxe⟩
    · exact h1 x (List.getElem?_mem hk) hx0
    · exact hxe
  · intro x hx
    rcases mem_updateAt_idx hx with ⟨k, _, hk⟩ | ⟨j', _, hxe⟩
    · exact h2 x (List.getElem?_mem hk)
    · subst hxe; exact le_refl 0
  · intro a b ja jb hab hga hgb hja
    rw [updateAt_getElem?] at hga hgb
    by_cases hai : a = i <;> by_cases hbi : b = i
    · exact absurd (hai.trans hbi.symm) (Nat.ne_of_lt hab)
    · rw [if_pos hai] at hga
      cases hg : l[i]? with
      | none => rw [hg] at hga; simp at hga
      | some y =>
          rw [hg, Option.map_some'] at hga
          injection hga with hga
          subst hga
          exact absurd rfl hja
    · rw [if_neg hai] at hga
      rw [if_pos hbi] at hgb
      cases hg : l[i]? with
      | none => rw [hg] at hgb; simp at hgb
      | some y =>
          rw [hg, Option.map_some'] at hgb
          injection hgb with hgb
          subst hgb
          exact hja
    · rw [if_neg hai] at hga
      rw [if_neg hbi] at hgb
      exact h3 a b ja jb hab hga hgb hja

/-- Writing a fresh live job into a slot keeps the table well-formed. -/
theorem WfTable_updateAt_add {l : List job_t} {i : Nat} {njid : Int}
    {pid : Int} {st : Nat} {cmd : String} (hw : WfTable l)
    (hp : 1 ≤ pid) (hfresh : ∀ x ∈ l, x.pid ≠ pid) :
    WfTable (updateAt l i fun _ => (⟨pid, njid, st, cmd⟩ : job_t)) := by
  obtain ⟨h1, h2, h3⟩ := hw
  refine ⟨?_, ?_, ?_⟩
  · intro x hx hx0
    rcases mem_updateAt_idx hx with ⟨k, _, hk⟩ | ⟨j', _, hxe⟩
    · exact h1 x (List.getElem?_mem hk) hx0
    · subst hxe
      exact absurd hx0 (by simp; omega)
  · intro x hx
    rcases mem_updateAt_idx hx with ⟨k, _, hk⟩ | ⟨j', _, hxe⟩
    · exact h2 x (List.getElem?_mem hk)
    · subst hxe; simp; omega
  · intro a b ja jb hab hga hgb hja
    rw [updateAt_getElem?] at hga hgb
    by_cases hai : a = i <;> by_cases hbi : b = i
    · exact absurd (hai.trans hbi.symm) (Nat.ne_of_lt hab)
    · rw [if_pos hai] at hga
      rw [if_neg hbi] at hgb
      cases hg : l[i]? with
      | none => rw [hg] at hga; simp at hga
      | some y =>
          rw [hg, Option.map_some'] at hga
          injection hga with hga
          subst hga
          have hbfresh : jb.pid ≠ pid := hfresh jb (List.getElem?_mem hgb)
          exact fun he => hbfresh he.symm
    · rw [if_neg hai] at hga
      rw [if_pos hbi] at hgb
      cases hg : l[i]? with
      | none => rw [hg] at hgb; simp at hgb
      | some y =>
          rw [hg, Option.map_some'] at hgb
          injection hgb with hgb
          subst hgb
          exact hfresh ja (List.getElem?_mem hga)
    · rw [if_neg hai] at hga
      rw [if_neg hbi] at hgb
      exact h3 a b ja jb hab hga hgb hja

/-- A slot update whose new state is not `FG` cannot create a
foreground job. -/
theorem noFg_updateAt {l : List job_t} {i : Nat} {f : job_t → job_t}
    (h : ∀ j ∈ l, j.state ≠ FG) (hf : ∀ j, (f j).state ≠ FG) :
    ∀ x ∈ updateAt l i f, x.state ≠ FG := by
  intro x hx
  rcases mem_updateAt hx with hxl | ⟨j, _, hxe⟩
  · exact h x hxl
  · exact hxe ▸ hf j

/-- A slot update whose new state is not `FG` preserves "every
foreground job has pid `p`". -/
theorem fgOnly_updateAt_nonFg {l : List job_t} {i : Nat}
    {f : job_t → job_t} {p : Int}
    (h : ∀ j ∈ l, j.state = FG → j.pid = p)
    (hf : ∀ j, (f j).state ≠ FG) :
    ∀ x ∈ updateAt l i f, x.state = FG → x.pid = p := by
  intro x hx hxs
  rcases mem_updateAt hx with hxl | ⟨j, _, hxe⟩
  · exact h x hxl hxs
  · exact absurd hxs (hxe ▸ hf j)

/-- `eval`'s wait loop exits only when `fgpid` differs from the waited
pid; if every foreground job carries that pid, none can be left. -/
theorem noFg_of_fgpid_ne {l : List job_t} {p : Int}
    (hB : ∀ j ∈ l, j.state = FG → j.pid = p) (h : fgpid l ≠ p) :
    ∀ j ∈ l, j.state ≠ FG := by
  intro j hj hFG
  apply h
  cases hf : l.find? (fun x => x.state == FG) with
  | none =>
      have := List.find?_eq_none.mp hf j hj
      simp [hFG] at this
  | some j0 =>
      have hm := List.mem_of_find?_eq_some hf
      have hs : j0.state = FG := by simpa using List.find?_some hf
      simp only [fgpid, hf]
      exact hB j0 hm hs

theorem countP_le_one_of_pairwise {l : List job_t} {p : job_t → Bool}
    (h : ∀ (a b : Nat) (ja jb : job_t), a < b → l[a]? = some ja →
      l[b]? = some jb → p ja = true → p jb = true → False) :
    l.countP p ≤ 1 := by
  induction l with
  | nil => simp
  | cons a as ih =>
      by_cases hpa : p a
      · rw [List.countP_cons_of_pos _ _ hpa]
        have hz : as.countP p = 0 := by
          rw [List.countP_eq_zero]
          intro x hx hpx
          obtain ⟨k, hk⟩ := List.mem_iff_getElem?.mp hx
          exact h 0 (k + 1) a x (Nat.succ_pos k) List.getElem?_cons_zero
            (by simpa using hk) hpa hpx
        omega
      · rw [List.countP_cons_of_neg _ _ hpa]
        refine ih ?_
        intro a' b' ja jb hab hga hgb hpja hpjb
        exact h (a' + 1) (b' + 1) ja jb (Nat.succ_lt_succ hab)
          (by simpa using hga) (by simpa using hgb) hpja hpjb

/-- Deleting a job (the reaper's terminated branches, in any phase where
the deleted pid is not the one `fg_handler` is waiting on) preserves the
invariant. -/
theorem Inv_delete {jb : Jobs} {ph : Phase} {pid : Int}
    (hw : WfTable jb.list) (hfg : FgOk ⟨jb, ph⟩)
    (hnw : ∀ i p, ph = .fgWait i p → pid ≠ p) :
    Inv ⟨(deletejob jb pid).1, ph⟩ := by
  obtain ⟨hw1, hw2, hw3⟩ := hw
  rcases deletejob_cases jb pid with heq | ⟨hp, i0, j0, hget0, hj0p, hlist⟩
  · rw [heq]; exact ⟨⟨hw1, hw2, hw3⟩, hfg⟩
  · refine ⟨?_, ?_⟩
    · show WfTable (deletejob jb pid).1.list
      rw [hlist]
      exact WfTable_updateAt_clear ⟨hw1, hw2, hw3⟩
    · cases ph with
      | idle =>
          have hfg' : ∀ j ∈ jb.list, j.state ≠ FG := hfg
          show ∀ x ∈ (deletejob jb pid).1.list, x.state ≠ FG
          rw [hlist]
          exact noFg_updateAt hfg' (fun j => show UNDEF ≠ FG by decide)
      | evalWait p =>
          have hB : ∀ j ∈ jb.list, j.state = FG → j.pid = p := hfg
          show ∀ x ∈ (deletejob jb pid).1.list, x.state = FG → x.pid = p
          rw [hlist]
          exact fgOnly_updateAt_nonFg hB (fun j => show UNDEF ≠ FG by decide)
      | fgWait iw pw =>
          obtain ⟨hB, ⟨jw, hjw, hjwp⟩, hpw1⟩ := hfg
          have hne : pid ≠ pw := hnw iw pw rfl
          refine ⟨?_, ⟨jw, ?_, hjwp⟩, hpw1⟩
          · show ∀ x ∈ (deletejob jb pid).1.list, x.state = FG → x.pid = pw
            rw [hlist]
            exact fgOnly_updateAt_nonFg hB (fun j => show UNDEF ≠ FG by decide)
          · show (deletejob jb pid).1.list[iw]? = some jw
            rw [hlist, updateAt_getElem? iw]
            have hii : iw ≠ i0 := by
              intro he
              rw [he, hget0] at hjw
              injection hjw with hjw
              rw [hjw] at hj0p
              rw [hjwp] at hj0p
              exact hne hj0p.symm
            rw [if_neg hii]
            exact hjw

/-- The reaper's stopped branch (in any phase where the stopped pid is
not the one `fg_handler` is waiting on) preserves the invariant. -/
theorem Inv_reapStopped {jb : Jobs} {ph : Phase} {pid : Int} {sig : Int}
    (hw : WfTable jb.list) (hfg : FgOk ⟨jb, ph⟩)
    (hnw : ∀ i p, ph = .fgWait i p → pid ≠ p) :
    Inv ⟨(sigchld_step jb pid (.stopped sig)).1, ph⟩ := by
  obtain ⟨hw1, hw2, hw3⟩ := hw
  cases hg : getjobpid jb.list pid with
  | none =>
      have hjobs : (sigchld_step jb pid (.stopped sig)).1 = jb := by
        simp [sigchld_step, hg]
      rw [hjobs]
      exact ⟨⟨hw1, hw2, hw3⟩, hfg⟩
  | some ix =>
      obtain ⟨i2, j2⟩ := ix
      obtain ⟨hget, hj2p, hp1⟩ := getjobpid_some hg
      have hjobs : (sigchld_step jb pid (.stopped sig)).1 =
          {jb with
            list := updateAt jb.list i2 (fun x => {x with state := ST})} := by
        simp [sigchld_step, hg]
      rw [hjobs]
      refine ⟨WfTable_updateAt_state ⟨hw1, hw2, hw3⟩ hget (by omega), ?_⟩
      cases ph with
      | idle =>
          have hfg' : ∀ j ∈ jb.list, j.state ≠ FG := hfg
          exact noFg_updateAt hfg' (fun j => show ST ≠ FG by decide)
      | evalWait p =>
          have hB : ∀ j ∈ jb.list, j.state = FG → j.pid = p := hfg
          exact fgOnly_updateAt_nonFg hB (fun j => show ST ≠ FG by decide)
      | fgWait iw pw =>
          obtain ⟨hB, ⟨jw, hjw, hjwp⟩, hpw1⟩ := hfg
          have hne : pid ≠ pw := hnw iw pw rfl
          refine ⟨fgOnly_updateAt_nonFg hB
              (fun j => show ST ≠ FG by decide), ⟨jw, ?_, hjwp⟩, hpw1⟩
          rw [updateAt_getElem? iw]
          have hii : iw ≠ i2 := by
            intro he
            rw [he, hget] at hjw
            injection hjw with hjw
            rw [hjw] at hj2p
            rw [hjwp] at hj2p
            exact hne hj2p.symm
          rw [if_neg hii]
          exact hjw

theorem inv_init : Inv ⟨initjobs, .idle⟩ := by
  refine ⟨⟨?_, ?_, ?_⟩, ?_⟩
  · intro j hj _
    exact List.eq_of_mem_replicate hj
  · intro j hj
    rw [List.eq_of_mem_replicate hj]
    exact le_refl 0
  · intro a b ja jb hab hga hgb hja
    have hmem := List.getElem?_mem hga
    rw [List.eq_of_mem_replicate hmem] at hja
    exact absurd rfl hja
  · show ∀ j ∈ initjobs.list, j.state ≠ FG
    intro j hj
    rw [List.eq_of_mem_replicate hj]
    decide

theorem inv_step {s s' : Shell} (hinv : Inv s) (hstep : Step s s') :
    Inv s' := by
  obtain ⟨jb, ph⟩ := s
  obtain ⟨⟨hw1, hw2, hw3⟩, hfg⟩ := hinv
  cases hstep with
  | launch_bg pid cmd hphase hfresh =>
      have hph : ph = .idle := hphase
      subst hph
      have hfg' : ∀ j ∈ jb.list, j.state ≠ FG := hfg
      rcases addjob_cases jb pid BG cmd with heq |
        ⟨hp, i0, j0, hget, hj0, hlist⟩
      · rw [heq]
        exact ⟨⟨hw1, hw2, hw3⟩, hfg'⟩
      · refine ⟨?_, ?_⟩
        · show WfTable (addjob jb pid BG cmd).1.list
          rw [hlist]
          exact WfTable_updateAt_add ⟨hw1, hw2, hw3⟩ hp hfresh
        · show ∀ j ∈ (addjob jb pid BG cmd).1.list, j.state ≠ FG
          rw [hlist]
          exact noFg_updateAt hfg' (fun j => show BG ≠ FG by decide)
  | launch_fg pid cmd hphase hfresh =>
      have hph : ph = .idle := hphase
      subst hph
      have hfg' : ∀ j ∈ jb.list, j.state ≠ FG := hfg
      rcases addjob_cases jb pid FG cmd with heq |
        ⟨hp, i0, j0, hget, hj0, hlist⟩
      · rw [heq]
        refine ⟨⟨hw1, hw2, hw3⟩, ?_⟩
        show ∀ j ∈ jb.list, j.state = FG → j.pid = pid
        exact fun j hj hFG => absurd hFG (hfg' j hj)
      · refine ⟨?_, ?_⟩
        · show WfTable (addjob jb pid FG cmd).1.list
          rw [hlist]
          exact WfTable_updateAt_add ⟨hw1, hw2, hw3⟩ hp hfresh
        · show ∀ j ∈ (addjob jb pid FG cmd).1.list, j.state = FG →
            j.pid = pid
          rw [hlist]
          intro x hx hxFG
          rcases mem_updateAt hx with hxl | ⟨jj, _, hxe⟩
          · exact absurd hxFG (hfg' x hxl)
          · subst hxe; rfl
  | evalWait_done p hphase hfgne =>
      have hph : ph = .evalWait p := hphase
      subst hph
      have hB : ∀ j ∈ jb.list, j.state = FG → j.pid = p := hfg
      exact ⟨⟨hw1, hw2, hw3⟩, noFg_of_fgpid_ne hB hfgne⟩
  | bg_run arg hphase =>
      have hph : ph = .idle := hphase
      subst hph
      have hfg' : ∀ j ∈ jb.list, j.state ≠ FG := hfg
      cases hres : resolveJob jb.list arg with
      | none =>
          have hjobs : (bg_handler jb arg).jobs = jb := by
            rw [bg_handler, hres]
            rfl
          rw [hjobs]
          exact ⟨⟨hw1, hw2, hw3⟩, hfg'⟩
      | some ix =>
          obtain ⟨i2, j2⟩ := ix
          obtain ⟨hget, hpos⟩ := resolveJob_some hw1 hw2 hres
          have hjobs : (bg_handler jb arg).jobs =
              {jb with
                list := updateAt jb.list i2
                  (fun x => {x with state := BG})} := by
            rw [bg_handler, hres]
          rw [hjobs]
          refine ⟨?_, ?_⟩
          · exact WfTable_updateAt_state ⟨hw1, hw2, hw3⟩ hget (by omega)
          · show ∀ j ∈ updateAt jb.list i2 (fun x => {x with state := BG}),
              j.state ≠ FG
            exact noFg_updateAt hfg' (fun j => show BG ≠ FG by decide)
  | fg_notfound arg hphase hres =>
      have hph : ph = .idle := hphase
      subst hph
      exact ⟨⟨hw1, hw2, hw3⟩, hfg⟩
  | fg_found arg i j hphase hres =>
      have hph : ph = .idle := hphase
      subst hph
      have hfg' : ∀ x ∈ jb.list, x.state ≠ FG := hfg
      obtain ⟨hget, hpos⟩ := resolveJob_some hw1 hw2 hres
      refine ⟨?_, ?_, ?_, ?_⟩
      · exact WfTable_updateAt_state ⟨hw1, hw2, hw3⟩ hget (by omega)
      · show ∀ x ∈ updateAt jb.list i (fun x => {x with state := FG}),
          x.state = FG → x.pid = j.pid
        intro x hx hxFG
        rcases mem_updateAt hx with hxl | ⟨jj, hjj, hxe⟩
        · exact absurd hxFG (hfg' x hxl)
        · subst hxe
          rw [hget] at hjj
          injection hjj with hjj
          subst hjj
          rfl
      · refine ⟨{j with state := FG}, ?_, rfl⟩
        rw [updateAt_getElem? i, if_pos rfl, hget, Option.map_some']
      · omega
  | fgWait_stop i p hphase =>
      have hph : ph = .fgWait i p := hphase
      subst hph
      obtain ⟨hB, ⟨jw, hjw, hjwp⟩, hp1⟩ := hfg
      refine ⟨?_, ?_⟩
      · exact WfTable_updateAt_state ⟨hw1, hw2, hw3⟩ hjw (by omega)
      · show ∀ x ∈ updateAt jb.list i (fun x => {x with state := ST}),
          x.state ≠ FG
        intro x hx hxFG
        rcases mem_updateAt_idx hx with ⟨k, hki, hk⟩ | ⟨jj, hjj, hxe⟩
        · have hxp : x.pid = p := hB x (List.getElem?_mem hk) hxFG
          exact pid_clash hw3 hki hk hjw (by rw [hxp, hjwp]) (by omega)
        · subst hxe
          have hstfg : ST ≠ FG := by decide
          exact absurd hxFG hstfg
  | fgWait_exit i p hphase =>
      have hph : ph = .fgWait i p := hphase
      subst hph
      obtain ⟨hB, ⟨jw, hjw, hjwp⟩, hp1⟩ := hfg
      obtain ⟨i0, j0, hget0, hj0p, hlist⟩ :=
        deletejob_found jb p hp1 ⟨i, jw, hjw, hjwp⟩
      refine ⟨?_, ?_⟩
      · show WfTable (deletejob jb p).1.list
        rw [hlist]
        exact WfTable_updateAt_clear ⟨hw1, hw2, hw3⟩
      · show ∀ x ∈ (deletejob jb p).1.list, x.state ≠ FG
        rw [hlist]
        intro x hx hxFG
        rcases mem_updateAt_idx hx with ⟨k, hki, hk⟩ | ⟨jj, hjj, hxe⟩
        · have hxp : x.pid = p := hB x (List.getElem?_mem hk) hxFG
          exact pid_clash hw3 hki hk hget0 (by rw [hxp, hj0p]) (by omega)
        · subst hxe
          have hunfg : UNDEF ≠ FG := by decide
          exact absurd hxFG hunfg
  | reap pid stat hpid hnotwait =>
      cases stat with
      | stopped sig =>
          exact Inv_reapStopped ⟨hw1, hw2, hw3⟩ hfg hnotwait
      | signaled sig =>
          exact Inv_delete ⟨hw1, hw2, hw3⟩ hfg hnotwait
      | exited code =>
          exact Inv_delete ⟨hw1, hw2, hw3⟩ hfg hnotwait

theorem inv_reach {s : Shell} (h : Reach s) : Inv s := by
  induction h with
  | init => exact inv_init
  | step _ hstep ih => exact inv_step ih hstep

/-- **C3**: in every state reachable by the shell's operations (launch,
bg, fg, reap, delete), at most one job in the job table has state
Foreground. -/
theorem C3_at_most_one_fg (s : Shell) (h : Reach s) :
    (s.jobs.list.countP fun j => j.state == FG) ≤ 1 := by
  obtain ⟨⟨hw1, hw2, hw3⟩, hfg⟩ := inv_reach h
  refine countP_le_one_of_pairwise ?_
  intro a b ja jb hab hga hgb hpa hpb
  have hja : ja.state = FG := by simpa using hpa
  have hjb : jb.state = FG := by simpa using hpb
  have hja0 : ja.pid ≠ 0 := by
    intro h0
    have := hw1 ja (List.getElem?_mem hga) h0
    rw [this] at hja
    exact absurd hja (by decide)
  obtain ⟨jjb, phh⟩ := s
  cases phh with
  | idle =>
      have hfg' : ∀ j ∈ jjb.list, j.state ≠ FG := hfg
      exact absurd hja (hfg' ja (List.getElem?_mem hga))
  | evalWait p =>
      have hB : ∀ j ∈ jjb.list, j.state = FG → j.pid = p := hfg
      have h1 := hB ja (List.getElem?_mem hga) hja
      have h2 := hB jb (List.getElem?_mem hgb) hjb
      exact hw3 a b ja jb hab hga hgb hja0 (h1.trans h2.symm)
  | fgWait iw pw =>
      obtain ⟨hB, _, _⟩ := hfg
      have h1 := hB ja (List.getElem?_mem hga) hja
      have h2 := hB jb (List.getElem?_mem hgb) hjb
      exact hw3 a b ja jb hab hga hgb hja0 (h1.trans h2.symm)

/-- Witness for C3: after launching one foreground job from startup, the
state is reachable and its foreground count is (exactly) at most one. -/
theorem C3_at_most_one_fg_witness :
    ((⟨(addjob initjobs 5 FG "cat").1,
        Phase.evalWait 5⟩ : Shell).jobs.list.countP
      fun j => j.state == FG) ≤ 1 :=
  C3_at_most_one_fg ⟨(addjob initjobs 5 FG "cat").1, .evalWait 5⟩
    (Reach.step Reach.init
      (Step.launch_fg ⟨initjobs, .idle⟩ 5 "cat" rfl (by decide)))

end Tsh
